import Mathlib

/-!
Verification of the bake incremental build orchestrator (flynn-archive/bake).

The Go source is shallowly embedded: each Lean definition below translates one
Go function or type.  File-system state, the persisted snapshot store, and
cryptographic hashes are modelled abstractly but faithfully: a SHA-256 digest
is represented by its canonical preimage (the exact byte tokens the Go code
feeds into the hash), so equality and inequality of digests coincide with the
Go behaviour up to hash collisions, and on-disk files are a function from path
to stat result.  Functions named spec... are the one sanctioned exception:
they transcribe the natural-language specification's wording so that
refinement claims can compare the two.
-/

namespace Bake

/-! ## Data model (bake.go) -/

/-- ExecCommand represents a command executed against the OS exec, from bake.go. -/
structure ExecCommand where
  Args : List String
deriving DecidableEq, Repr

/-- ShellCommand represents a command fed to /bin/sh on stdin, from parser.go. -/
structure ShellCommand where
  Source : String
deriving DecidableEq, Repr

/-- Command is the Go interface with its two concrete shapes. -/
inductive Command where
  | exec (c : ExecCommand)
  | shell (c : ShellCommand)
deriving DecidableEq, Repr

/-- Target represents a buildable rule, from bake.go. -/
structure Target where
  Name : String
  Phony : Bool
  Title : String
  WorkDir : String
  Commands : List Command
  Inputs : List String
  Outputs : List String
deriving DecidableEq, Repr

/-- Package represents a collection of targets, from bake.go. -/
structure Package where
  Name : String
  Targets : List Target
deriving DecidableEq, Repr

/-- The loop body of Package.Target from bake.go: scan the target list in
order; within each element check the name first, then the declared outputs. -/
def targetLookup (name : String) : List Target → Option Target
  | [] => none
  | t :: rest =>
    if t.Name = name then some t
    else if name ∈ t.Outputs then some t
    else targetLookup name rest

/-- Package.Target returns a target by name or by output, from bake.go. -/
def packageTarget (p : Package) (name : String) : Option Target :=
  targetLookup name p.Targets

/-! ## Labels (bake.go) -/

/-- Label references a package and target, from bake.go. -/
structure Label where
  Package : String
  Target : String
deriving DecidableEq, Repr

/-- The character class matched by the Go regexp escape for whitespace:
tab, newline, form feed, carriage return and space. -/
def goSpace (c : Char) : Bool :=
  c = ' ' || c = Char.ofNat 9 || c = Char.ofNat 10 || c = Char.ofNat 12 || c = Char.ofNat 13

/-- Splits a character list at the last occurrence of sep: returns the
characters before it and after it, or none when sep does not occur. -/
def splitLast (sep : Char) : List Char → Option (List Char × List Char)
  | [] => none
  | c :: rest =>
    match splitLast sep rest with
    | some (p, t) => some (c :: p, t)
    | none => if c = sep then some ([], rest) else none

/-- ParseLabel from bake.go.  The Go code matches the anchored regexp
with an optional greedy non-whitespace group before a colon followed by a
greedy non-whitespace group.  Greedy matching makes the optional group grab
the longest colon-terminated run, so a matched string is split at its LAST
colon; a string containing a whitespace character does not match at all, the
submatch slice is nil, and indexing it panics (modelled as none). -/
def parseLabel (s : String) : Option Label :=
  if s.data.any goSpace then none
  else
    match splitLast ':' s.data with
    | some (p, t) => some ⟨String.mk p, String.mk t⟩
    | none => some ⟨"", s⟩

/-- Splitting at the FIRST colon, transcribing the claim wording for C7:
the package is the substring before the first colon, the target everything
after it; with no colon the package is empty and the whole string is the
target. -/
def specFirstColonLabel (s : String) : Label :=
  match s.data.splitOn ':' with
  | [] => ⟨"", s⟩
  | [_] => ⟨"", s⟩
  | p :: rest => ⟨String.mk p, String.mk (List.intercalate [':'] rest)⟩

/-! ## Command runners (builder.go) -/

/-- The argv construction in Builder.runExec from builder.go: Go evaluates
cmd.Args[0] with no guard, which panics on an empty slice (modelled by none),
and passes cmd.Args[1:] as the remaining arguments. -/
def runExec (cmd : ExecCommand) : Option (String × List String) :=
  match cmd.Args.get? 0 with
  | none => none
  | some prog => some (prog, cmd.Args.drop 1)

/-! ## Hashing (snapshot.go)

SHA-256 digests are modelled by their canonical preimages: the token list a
hash function writes into the hasher stands for the resulting digest string.
Every claim depends only on equality of digests, which the preimage tracks
exactly (up to SHA-256 collisions, which the Go code also ignores). -/

/-- One token written into a hash state by snapshot.go. -/
inductive HashTok where
  | str (s : String)
  | nul
  | execTag
  | shellTag
deriving DecidableEq, Repr

/-- writeStrings from snapshot.go: each string followed by a NUL byte. -/
def writeStrings (a : List String) : List HashTok :=
  a.flatMap (fun s => [HashTok.str s, HashTok.nul])

/-- hashTarget from snapshot.go: the declared dependency names, then for each
command a discriminator tag followed by its payload. -/
def hashTarget (t : Target) : List HashTok :=
  writeStrings t.Inputs ++
    t.Commands.flatMap (fun c =>
      match c with
      | Command.exec e => HashTok.execTag :: writeStrings e.Args
      | Command.shell sh => [HashTok.shellTag, HashTok.str sh.Source])

/-! ## Snapshotter (snapshot.go)

The on-disk project tree is a function from path (relative to the project
root, which snapshot.go joins on before every stat) to a stat outcome: the
path may be missing, stat may fail with a non-not-exist error, or the path
exists with an info digest (mode, mtime, size for regular files; mode and
sorted entry list for directories) and a content digest (file bytes; empty
for directories).  Digest strings are kept abstract because only their
equality matters. -/

/-- Outcome of examining one path of the project tree. -/
inductive FileStat where
  | missing
  | statError (msg : String)
  | file (info content : String)
deriving DecidableEq, Repr

/-- Errors surfaced by snapshot.go, separating the os.IsNotExist case the
code tests for from every other I/O error. -/
inductive GoError where
  | notExist
  | other (msg : String)
deriving DecidableEq, Repr

/-- hashFileInfo from snapshot.go: stat the path and digest its metadata. -/
def hashFileInfo (fs : String → FileStat) (name : String) : Except GoError String :=
  match fs name with
  | FileStat.missing => Except.error GoError.notExist
  | FileStat.statError m => Except.error (GoError.other m)
  | FileStat.file i _ => Except.ok i

/-- hashFileContent from snapshot.go: open the path and digest its bytes
(directories digest to the empty string, covered by the content field). -/
def hashFileContent (fs : String → FileStat) (name : String) : Except GoError String :=
  match fs name with
  | FileStat.missing => Except.error GoError.notExist
  | FileStat.statError m => Except.error (GoError.other m)
  | FileStat.file _ c => Except.ok c

/-- fileSnapshot from snapshot.go: the recorded state of one input file. -/
structure fileSnapshot where
  name : String
  hash : String
  content : String
deriving DecidableEq, Repr

/-- fileSnapshot.isDirty from snapshot.go: a missing file is dirty; a
non-not-exist stat error propagates; a differing info hash is dirty without
consulting the content; only when the info hashes agree is the content hash
compared; any content error propagates. -/
def fileSnapshotIsDirty (fs : String → FileStat) (f : fileSnapshot) : Except GoError Bool :=
  match hashFileInfo fs f.name with
  | Except.error GoError.notExist => Except.ok true
  | Except.error e => Except.error e
  | Except.ok h =>
    if f.hash ≠ h then Except.ok true
    else
      match hashFileContent fs f.name with
      | Except.error e => Except.error e
      | Except.ok c => if f.content ≠ c then Except.ok true else Except.ok false

/-- fileSnapshots.isDirty from snapshot.go: first dirty file wins. -/
def fileSnapshotsIsDirty (fs : String → FileStat) : List fileSnapshot → Except GoError Bool
  | [] => Except.ok false
  | f :: rest =>
    match fileSnapshotIsDirty fs f with
    | Except.error e => Except.error e
    | Except.ok true => Except.ok true
    | Except.ok false => fileSnapshotsIsDirty fs rest

/-- targetSnapshot from snapshot.go: the persisted signature of a target. -/
structure targetSnapshot where
  name : String
  hash : List HashTok
  inputs : List fileSnapshot
deriving DecidableEq, Repr

/-- Snapshot.IsTargetDirty from snapshot.go.  The store models readTarget:
one record per target name, none standing for ErrSnapshotTargetNotFound
(records written by writeTarget always unmarshal, so no decode error arises). -/
def isTargetDirty (store : String → Option targetSnapshot) (fs : String → FileStat)
    (t : Target) : Except GoError Bool :=
  match store t.Name with
  | none => Except.ok true
  | some ts =>
    if ts.hash ≠ hashTarget t then Except.ok true
    else fileSnapshotsIsDirty fs ts.inputs

/-- newFileSnapshot from snapshot.go: stat and content-digest one input. -/
def newFileSnapshot (fs : String → FileStat) (name : String) : Except GoError fileSnapshot :=
  match hashFileInfo fs name with
  | Except.error e => Except.error e
  | Except.ok h =>
    match hashFileContent fs name with
    | Except.error e => Except.error e
    | Except.ok c => Except.ok ⟨name, h, c⟩

/-- sort.Strings from the Go standard library: ascending lexicographic sort.
Any correct sort of a string list under the total order is the same list, so
insertion sort is an exact model. -/
def sortStrings (names : List String) : List String :=
  List.insertionSort (fun a b => a ≤ b) names

/-- The loop of newFileSnapshots from snapshot.go, run on the already-sorted
names: files that have gone missing are silently dropped, any other error
propagates. -/
def newFileSnapshotsSorted (fs : String → FileStat) : List String → Except GoError (List fileSnapshot)
  | [] => Except.ok []
  | n :: rest =>
    match newFileSnapshot fs n with
    | Except.error GoError.notExist => newFileSnapshotsSorted fs rest
    | Except.error e => Except.error e
    | Except.ok f =>
      match newFileSnapshotsSorted fs rest with
      | Except.error e => Except.error e
      | Except.ok a => Except.ok (f :: a)

/-- newFileSnapshots from snapshot.go: sort the names for consistency, then
snapshot each one. -/
def newFileSnapshots (fs : String → FileStat) (names : List String) :
    Except GoError (List fileSnapshot) :=
  newFileSnapshotsSorted fs (sortStrings names)

/-- Snapshot.AddTarget from snapshot.go: the signature record it persists
for target t given the observed input names. -/
def addTarget (fs : String → FileStat) (t : Target) (inputs : List String) :
    Except GoError targetSnapshot :=
  match newFileSnapshots fs inputs with
  | Except.error e => Except.error e
  | Except.ok files => Except.ok ⟨t.Name, hashTarget t, files⟩

/-! ## writeTarget as a trace of file-system operations (snapshot.go) -/

/-- The file-system side effects available to writeTarget.  createTemp and
rename are in the vocabulary so that a temp-write-then-rename sequence is
expressible; the Go code never issues them. -/
inductive FsOp where
  | mkdirAll (dir : String)
  | writeFile (path : String) (data : targetSnapshot)
  | createTemp (dir : String)
  | rename (src dst : String)
deriving DecidableEq, Repr

/-- filepath.Join of the snapshot path and a target name. -/
def snapshotTargetPath (ssPath name : String) : String :=
  ssPath ++ "/" ++ name

/-- filepath.Dir: everything before the last separator, or dot. -/
def dirOf (p : String) : String :=
  match splitLast '/' p.data with
  | some (d, _) => String.mk d
  | none => "."

/-- Snapshot.writeTarget from snapshot.go, as the ordered list of file-system
operations it performs: make the parent directories, then write the marshalled
record directly to the final path with a single WriteFile call. -/
def writeTargetOps (ssPath : String) (ts : targetSnapshot) : List FsOp :=
  [FsOp.mkdirAll (dirOf (snapshotTargetPath ssPath ts.name)),
   FsOp.writeFile (snapshotTargetPath ssPath ts.name) ts]

/-! ## Specification transcriptions for the Snapshotter (claim C1)

These definitions follow the claim wording, not the code, and exist solely to
be compared with the code embedding above. -/

/-- Claim C1 wording for one stored file snapshot: dirty if the file no
longer exists, or if the recomputed info hash differs from the stored one, or
(only when the info hashes agree) if the recomputed content hash differs from
the stored one.  A non-not-exist stat failure propagates as an error. -/
def specFileDirty (fs : String → FileStat) (f : fileSnapshot) : Except GoError Bool :=
  match fs f.name with
  | FileStat.missing => Except.ok true
  | FileStat.statError m => Except.error (GoError.other m)
  | FileStat.file i c =>
    Except.ok (decide (i ≠ f.hash) || (decide (i = f.hash) && decide (c ≠ f.content)))

/-- Claim C1 wording for the stored snapshots in order. -/
def specFilesDirty (fs : String → FileStat) : List fileSnapshot → Except GoError Bool
  | [] => Except.ok false
  | f :: rest =>
    match specFileDirty fs f with
    | Except.error e => Except.error e
    | Except.ok true => Except.ok true
    | Except.ok false => specFilesDirty fs rest

/-- Claim C1 wording for the whole dirtiness check: no persisted signature is
dirty; a stored command hash differing from the recomputed one is dirty; else
the stored file snapshots are scanned in order; otherwise clean. -/
def specIsTargetDirty (store : String → Option targetSnapshot) (fs : String → FileStat)
    (t : Target) : Except GoError Bool :=
  match store t.Name with
  | none => Except.ok true
  | some ts =>
    if ts.hash = hashTarget t then specFilesDirty fs ts.inputs
    else Except.ok true

/-! ## Build nodes and RootErr (bake.go)

A Build node carries its completion error and its dependency list.  The
output pipes, mutex and completion latch play no part in RootErr and are
omitted; the error field distinguishes the two propagation sentinels
ErrDependency and ErrCanceled from every other (original-cause) error. -/

/-- A build error value: the two sentinels from builder.go plus any other
error carried by a build (command failures, snapshot I/O, ...). -/
inductive BErr where
  | dependency
  | canceled
  | failed (msg : String)
deriving DecidableEq, Repr

/-- The error test inside Build.RootErr from bake.go: non-nil and neither
ErrDependency nor ErrCanceled. -/
def realErr : Option BErr → Bool
  | none => false
  | some BErr.dependency => false
  | some BErr.canceled => false
  | some (BErr.failed _) => true

/-- A Build node as walked by RootErr: its own error and its dependencies. -/
inductive BuildTree where
  | node (err : Option BErr) (dependencies : List BuildTree)

mutual

/-- Build.RootErr from bake.go: return the node's own error when it is
neither sentinel, else the first non-none RootErr among the dependencies. -/
def rootErr : BuildTree → Option BErr
  | BuildTree.node e deps => if realErr e then e else rootErrList deps

/-- The dependency loop of Build.RootErr from bake.go. -/
def rootErrList : List BuildTree → Option BErr
  | [] => none
  | b :: rest =>
    match rootErr b with
    | some x => some x
    | none => rootErrList rest

end

mutual

/-- The pre-order listing of the error fields of a build DAG walk: each
node's own error precedes its dependencies, dependencies in order. -/
def preorder : BuildTree → List (Option BErr)
  | BuildTree.node e deps => e :: preorderList deps

/-- Pre-order over a forest of build nodes. -/
def preorderList : List BuildTree → List (Option BErr)
  | [] => []
  | b :: rest => preorder b ++ preorderList rest

end

/-- The first error in a walk listing that is neither sentinel, per the
claim C5 wording. -/
def findFirstReal : List (Option BErr) → Option BErr
  | [] => none
  | x :: rest => if realErr x then x else findFirstReal rest

/-! ## Planner (planner.go)

Build nodes created by the planner are given fresh numeric identities (in Go
they are distinct heap pointers); the construction log records every node the
run constructs.  Go's planTarget recurses without any guard, so its calls are
given fuel: exhausting the fuel models non-termination, and a run that
terminates in Go is exactly a run that succeeds for some fuel.  Both helpers
burn one unit per call. -/

/-- One Build node constructed by Planner.planTarget: its identity, its
target, and the identities of its dependency nodes in order. -/
structure PlanNode where
  id : Nat
  target : Target
  deps : List Nat
deriving DecidableEq, Repr

/-- The planner's mutable run state: the fresh-identity counter, the
builds-by-target-name map from Planner.Plan (as an association list, newest
first), and the log of every node constructed so far (newest first). -/
structure PlanState where
  counter : Nat
  memo : List (String × Nat)
  nodes : List PlanNode
deriving DecidableEq, Repr

/-- Association-list lookup modelling the Go map read builds[name]. -/
def lookupStr (l : List (String × Nat)) (k : String) : Option Nat :=
  match l with
  | [] => none
  | (a, b) :: rest => if a = k then some b else lookupStr rest k

/-- The error used when the fuel runs out, modelling non-termination. -/
def outOfFuel : String := "out of fuel"

mutual

/-- Planner.planTarget from planner.go: reuse the memoised node for the
name if one exists; otherwise walk the inputs, and if any input changed,
construct a node, memoise it under the target's name and return it, else
return no node. -/
def planTarget (pkg : Package) (cs : List String) :
    Nat → Target → PlanState → Except String (Option Nat × PlanState)
  | 0, _, _ => Except.error outOfFuel
  | Nat.succ fuel, t, s =>
    match lookupStr s.memo t.Name with
    | some b => Except.ok (some b, s)
    | none =>
      match planInputs pkg cs fuel t.Inputs s with
      | Except.error e => Except.error e
      | Except.ok (chg, deps, s1) =>
        if chg then
          Except.ok (some s1.counter,
            ⟨s1.counter + 1,
             (t.Name, s1.counter) :: s1.memo,
             ⟨s1.counter, t, deps⟩ :: s1.nodes⟩)
        else Except.ok (none, s1)

/-- The input loop of Planner.planTarget from planner.go: an input that is
no target is a file, marking the build changed when it is in the changeset;
an input that is a target is planned recursively, a returned node becoming a
dependency and marking the build changed. -/
def planInputs (pkg : Package) (cs : List String) :
    Nat → List String → PlanState → Except String (Bool × List Nat × PlanState)
  | 0, _, _ => Except.error outOfFuel
  | Nat.succ _, [], s => Except.ok (false, [], s)
  | Nat.succ fuel, input :: rest, s =>
    match packageTarget pkg input with
    | none =>
      match planInputs pkg cs fuel rest s with
      | Except.error e => Except.error e
      | Except.ok (chg, deps, s1) => Except.ok (cs.contains input || chg, deps, s1)
    | some sub =>
      match planTarget pkg cs fuel sub s with
      | Except.error e => Except.error e
      | Except.ok (none, s1) => planInputs pkg cs fuel rest s1
      | Except.ok (some bid, s1) =>
        match planInputs pkg cs fuel rest s1 with
        | Except.error e => Except.error e
        | Except.ok (_, deps, s2) => Except.ok (true, bid :: deps, s2)

end

/-- The target loop of Planner.Plan from planner.go: resolve each requested
name (unknown names are an error), plan it, and collect the returned nodes as
the top-level build's dependencies. -/
def planTargets (pkg : Package) (cs : List String) (fuel : Nat) :
    List String → PlanState → Except String (List Nat × PlanState)
  | [], s => Except.ok ([], s)
  | name :: rest, s =>
    match packageTarget pkg name with
    | none => Except.error ("target not found: " ++ name)
    | some t =>
      match planTarget pkg cs fuel t s with
      | Except.error e => Except.error e
      | Except.ok (none, s1) => planTargets pkg cs fuel rest s1
      | Except.ok (some bid, s1) =>
        match planTargets pkg cs fuel rest s1 with
        | Except.error e => Except.error e
        | Except.ok (deps, s2) => Except.ok (bid :: deps, s2)

/-- Planner.Plan from planner.go: start from an empty builds map, plan every
requested target, and return no plan when nothing is dirty.  The result pairs
the top-level dependency identities with the final state whose log names the
constructed nodes. -/
def plan (pkg : Package) (cs : List String) (fuel : Nat) (targets : List String) :
    Except String (Option (List Nat) × PlanState) :=
  match planTargets pkg cs fuel targets ⟨0, [], []⟩ with
  | Except.error e => Except.error e
  | Except.ok (deps, s) => Except.ok ((if deps.isEmpty then none else some deps), s)

/-! ## Reachability in the input graph (for the dedup invariant) -/

/-- One planning step: some input of t resolves to u via Package.Target. -/
def resolvesTo (pkg : Package) (t u : Target) : Prop :=
  ∃ i, i ∈ t.Inputs ∧ packageTarget pkg i = some u

/-- Zero or more planning steps. -/
inductive Reach (pkg : Package) : Target → Target → Prop
  | refl (t : Target) : Reach pkg t t
  | head {t u v : Target} : resolvesTo pkg t u → Reach pkg u v → Reach pkg t v

/-- t lies on an input cycle: some input step from t reaches t again. -/
def OnCycle (pkg : Package) (t : Target) : Prop :=
  ∃ u, resolvesTo pkg t u ∧ Reach pkg u t

/-- The planner-state invariant: the memo keys list the names of the logged
constructed nodes in the same order, no name was constructed twice, and every
memoised name belongs to a package target that is not on an input cycle. -/
def PlanInv (pkg : Package) (s : PlanState) : Prop :=
  s.memo.map Prod.fst = s.nodes.map (fun n => n.target.Name) ∧
  (s.memo.map Prod.fst).Nodup ∧
  ∀ nm ∈ s.memo.map Prod.fst, ∃ u, u ∈ pkg.Targets ∧ u.Name = nm ∧ ¬ OnCycle pkg u

/-- What one successful planTarget call guarantees: the invariant holds
afterwards, the memo grew only by names of targets reachable from the call's
target, and that target is not on an input cycle. -/
def PtConcl (pkg : Package) (t : Target) (s s2 : PlanState) : Prop :=
  PlanInv pkg s2 ∧
  (∃ d, s2.memo = d ++ s.memo ∧
    ∀ nm ∈ d.map Prod.fst, ∃ v, Reach pkg t v ∧ v.Name = nm) ∧
  ¬ OnCycle pkg t

/-- What one successful input-loop pass guarantees: the invariant holds
afterwards, the memo grew only by names reachable from targets the inputs
resolve to, and no input resolves to a target on an input cycle. -/
def PiConcl (pkg : Package) (inputs : List String) (s s2 : PlanState) : Prop :=
  PlanInv pkg s2 ∧
  (∃ d, s2.memo = d ++ s.memo ∧
    ∀ nm ∈ d.map Prod.fst, ∃ i u v, i ∈ inputs ∧ packageTarget pkg i = some u ∧
      Reach pkg u v ∧ v.Name = nm) ∧
  ∀ i ∈ inputs, ∀ u, packageTarget pkg i = some u → ¬ OnCycle pkg u

/-! ## Lemmas about lookup and reachability (planner) -/

theorem targetLookup_mem {name : String} {l : List Target} {t : Target}
    (h : targetLookup name l = some t) : t ∈ l := by
  induction l with
  | nil => exact absurd h (by simp [targetLookup])
  | cons hd rest ih =>
    unfold targetLookup at h
    by_cases h1 : hd.Name = name
    · rw [if_pos h1] at h
      exact (Option.some.inj h) ▸ List.mem_cons_self hd rest
    · rw [if_neg h1] at h
      by_cases h2 : name ∈ hd.Outputs
      · rw [if_pos h2] at h
        exact (Option.some.inj h) ▸ List.mem_cons_self hd rest
      · rw [if_neg h2] at h
        exact List.mem_cons_of_mem hd (ih h)

theorem packageTarget_mem {pkg : Package} {i : String} {u : Target}
    (h : packageTarget pkg i = some u) : u ∈ pkg.Targets :=
  targetLookup_mem h

theorem lookupStr_none {l : List (String × Nat)} {k : String}
    (h : lookupStr l k = none) : k ∉ l.map Prod.fst := by
  induction l with
  | nil => simp
  | cons p rest ih =>
    unfold lookupStr at h
    by_cases h1 : p.1 = k
    · rw [if_pos h1] at h
      exact absurd h (by simp)
    · rw [if_neg h1] at h
      intro hm
      rcases List.mem_cons.mp hm with h2 | h2
      · exact h1 h2.symm
      · exact ih h h2

theorem lookupStr_mem {l : List (String × Nat)} {k : String} {v : Nat}
    (h : lookupStr l k = some v) : k ∈ l.map Prod.fst := by
  induction l with
  | nil => exact absurd h (by simp [lookupStr])
  | cons p rest ih =>
    unfold lookupStr at h
    by_cases h1 : p.1 = k
    · exact List.mem_cons.mpr (Or.inl h1.symm)
    · rw [if_neg h1] at h
      exact List.mem_cons.mpr (Or.inr (ih h))

theorem reach_snoc {pkg : Package} {a b c : Target}
    (h : Reach pkg a b) (hr : resolvesTo pkg b c) : Reach pkg a c := by
  induction h with
  | refl t => exact Reach.head hr (Reach.refl c)
  | head hres _ ih => exact Reach.head hres (ih hr)

theorem reach_mem {pkg : Package} {u v : Target}
    (h : Reach pkg u v) (hu : u ∈ pkg.Targets) : v ∈ pkg.Targets := by
  induction h with
  | refl t => exact hu
  | head hres _ ih =>
    obtain ⟨i, _, hpt⟩ := hres
    exact ih (packageTarget_mem hpt)

theorem onCycle_succ {pkg : Package} {t u : Target}
    (hstep : resolvesTo pkg t u) (hreach : Reach pkg u t) : OnCycle pkg u := by
  cases hreach with
  | refl => exact ⟨t, hstep, Reach.refl t⟩
  | head hres hr => exact ⟨_, hres, reach_snoc hr hstep⟩

theorem target_name_inj {pkg : Package}
    (huniq : (pkg.Targets.map Target.Name).Nodup) {t u : Target}
    (ht : t ∈ pkg.Targets) (hu : u ∈ pkg.Targets) (h : t.Name = u.Name) : t = u :=
  List.inj_on_of_nodup_map huniq ht hu h

/-! ## Lemmas about labels -/

theorem splitLast_eq_none {sep : Char} {l : List Char} (h : sep ∉ l) :
    splitLast sep l = none := by
  induction l with
  | nil => rfl
  | cons c rest ih =>
    have hc : ¬ c = sep := fun hcc => h (hcc ▸ List.mem_cons_self c rest)
    have hr : sep ∉ rest := fun hm => h (List.mem_cons_of_mem c hm)
    simp [splitLast, ih hr, hc]

theorem splitLast_append {sep : Char} (p t : List Char) (ht : sep ∉ t) :
    splitLast sep (p ++ sep :: t) = some (p, t) := by
  induction p with
  | nil => simp [splitLast, splitLast_eq_none ht]
  | cons c rest ih => simp [splitLast, ih]

/-! ## Lemmas about the dirtiness check (claim C1) -/

theorem fileSnapshotIsDirty_eq_spec (fs : String → FileStat) (f : fileSnapshot) :
    fileSnapshotIsDirty fs f = specFileDirty fs f := by
  unfold fileSnapshotIsDirty specFileDirty hashFileInfo hashFileContent
  cases hfs : fs f.name with
  | missing => rfl
  | statError m => rfl
  | file i c =>
    by_cases h1 : f.hash = i
    · by_cases h2 : f.content = c
      · simp [h1, h2]
      · have h3 : ¬ c = f.content := fun hc => h2 hc.symm
        simp [h1, h2, h3]
    · have h3 : ¬ i = f.hash := fun hc => h1 hc.symm
      simp [h1, h3]

theorem fileSnapshotsIsDirty_eq_spec (fs : String → FileStat) (l : List fileSnapshot) :
    fileSnapshotsIsDirty fs l = specFilesDirty fs l := by
  induction l with
  | nil => rfl
  | cons f rest ih =>
    unfold fileSnapshotsIsDirty specFilesDirty
    rw [fileSnapshotIsDirty_eq_spec, ih]

/-- C1: Snapshot.IsTargetDirty follows exactly the claimed steps: absent
signature is dirty; a stored command hash differing from the recomputed one
is dirty; each stored file snapshot in order is dirty when the file is gone,
when the recomputed info hash differs, or (only when the info hashes agree)
when the recomputed content hash differs; otherwise the target is clean.
Stated as equality between the code embedding and the transcription of the
claim wording, over every store, file-system state and target. -/
theorem isTargetDirty_follows_spec (store : String → Option targetSnapshot)
    (fs : String → FileStat) (t : Target) :
    isTargetDirty store fs t = specIsTargetDirty store fs t := by
  unfold isTargetDirty specIsTargetDirty
  cases store t.Name with
  | none => rfl
  | some ts =>
    by_cases h : ts.hash = hashTarget t
    · simp [h, fileSnapshotsIsDirty_eq_spec]
    · simp [h]

/-! ## Claim C2: an mtime touch with unchanged content -/

/-- A target with no inputs and no commands, for the C2 scenario. -/
def tC2 : Target := ⟨"T", false, "", "", [], [], []⟩

/-- The stored snapshot of input file f before the touch. -/
def fC2 : fileSnapshot := ⟨"f", "infoOld", "content"⟩

/-- The persisted signature of T, recording f. -/
def tsC2 : targetSnapshot := ⟨"T", hashTarget tC2, [fC2]⟩

/-- The snapshot store containing exactly T's signature. -/
def storeC2 : String → Option targetSnapshot :=
  fun n => if n = "T" then some tsC2 else none

/-- The project tree after the touch: f's info digest changed (the mtime
advanced) while its content digest is identical. -/
def fsC2 : String → FileStat :=
  fun n => if n = "f" then FileStat.file "infoNew" "content" else FileStat.missing

/-- C2 counterexample: with a persisted signature whose input file's
recomputed info hash differs from the stored one while the content hash
matches, Snapshot.IsTargetDirty reports the target DIRTY, not clean as the
claim states: the content hash is consulted only when the info hashes agree,
so a differing info hash alone marks the file dirty. -/
theorem mtime_touch_reports_dirty : isTargetDirty storeC2 fsC2 tC2 = Except.ok true ∧
    Except.ok true ≠ (Except.ok false : Except GoError Bool) := by
  constructor
  · rfl
  · intro h
    cases h

/-- C2 amended: for a target with a persisted signature whose input file
still exists with a recomputed infoHash differing from the stored one
(whatever its content hash), Snapshot.IsTargetDirty reports the target
dirty. -/
theorem info_change_reports_dirty (store : String → Option targetSnapshot)
    (fs : String → FileStat) (t : Target) (ts : targetSnapshot) (f : fileSnapshot)
    (i c : String) (hst : store t.Name = some ts) (hh : ts.hash = hashTarget t)
    (hin : ts.inputs = [f]) (hfs : fs f.name = FileStat.file i c)
    (hne : f.hash ≠ i) :
    isTargetDirty store fs t = Except.ok true := by
  unfold isTargetDirty
  rw [hst]
  simp only [hh, hin]
  have h0 : ¬ (hashTarget t ≠ hashTarget t) := by simp
  rw [if_neg h0]
  unfold fileSnapshotsIsDirty fileSnapshotIsDirty hashFileInfo
  rw [hfs]
  simp [hne]

/-- C2 amended witness at the concrete touched-file scenario. -/
theorem info_change_reports_dirty_witness :
    isTargetDirty storeC2 fsC2 tC2 = Except.ok true :=
  info_change_reports_dirty storeC2 fsC2 tC2 tsC2 fC2 "infoNew" "content"
    rfl rfl rfl rfl (by decide)

/-! ## Claim C6: target lookup by name versus by output -/

/-- Declared first: a target whose declared output is the string x. -/
def t1C6 : Target := ⟨"t1", false, "", "", [], [], ["x"]⟩

/-- Declared second: a target whose name is the string x. -/
def t2C6 : Target := ⟨"x", false, "", "", [], [], []⟩

/-- A package in which an earlier target's output collides with a later
target's name. -/
def pkgC6 : Package := ⟨"p", [t1C6, t2C6]⟩

/-- C6 counterexample: Package.Target("x") returns the FIRST-declared target
t1 via its output, not the later target named x: the Go loop checks each
target's name and outputs before moving on, so resolution is not
name-over-output across the whole package, and declaration order decides. -/
theorem packageTarget_output_shadows_name :
    packageTarget pkgC6 "x" = some t1C6 ∧ t1C6.Name ≠ "x" := by
  exact ⟨rfl, by decide⟩

/-- C6 amended: Package.Target(name) scans targets in declaration order and
returns the first target t with t.Name = name or name among t.Outputs (the
name test preceding the output test only within one target); equivalently it
is List.find? with that disjunctive predicate, so an earlier target matched
by output wins over a later target matched by name. -/
theorem packageTarget_eq_find_first_match (p : Package) (name : String) :
    packageTarget p name =
      p.Targets.find? (fun t => t.Name == name || t.Outputs.contains name) := by
  unfold packageTarget
  induction p.Targets with
  | nil => rfl
  | cons t rest ih =>
    by_cases h1 : t.Name = name
    · simp [targetLookup, List.find?, beq_iff_eq, h1]
    · by_cases h2 : name ∈ t.Outputs
      · simp [targetLookup, List.find?, beq_iff_eq, h1, h2]
      · have hb : (t.Name == name) = false := beq_eq_false_iff_ne.mpr h1
        simp [targetLookup, List.find?, hb, h1, h2, ih]

/-! ## Claim C7: label parsing -/

/-- C7 counterexample: on the string with two colons ParseLabel keeps
everything before the LAST colon as the package, not the first: the greedy
optional group of the anchored label regexp grabs the longest
colon-terminated run.  The claim's first-colon reading would give package a
and target b:c. -/
theorem parseLabel_two_colons :
    parseLabel "a:b:c" = some ⟨"a:b", "c"⟩ ∧
    specFirstColonLabel "a:b:c" = ⟨"a", "b:c"⟩ ∧
    (⟨"a:b", "c"⟩ : Label) ≠ ⟨"a", "b:c"⟩ := by
  exact ⟨rfl, rfl, by decide⟩

/-- C7 amended: for every string free of regexp whitespace, ParseLabel
splits at the LAST colon: writing the string as p followed by a colon
followed by colon-free t, the package is p and the target is t; with no
colon at all the package is empty and the whole string is the target.
(Strings containing whitespace fail the anchored label regexp, and indexing
the nil submatch slice panics, modelled by none.) -/
theorem parseLabel_splits_on_last_colon :
    (∀ p t : List Char, ((p ++ ':' :: t).any goSpace) = false → ':' ∉ t →
      parseLabel (String.mk (p ++ ':' :: t)) = some ⟨String.mk p, String.mk t⟩) ∧
    (∀ s : String, (s.data.any goSpace) = false → ':' ∉ s.data →
      parseLabel s = some ⟨"", s⟩) := by
  constructor
  · intro p t hsp ht
    unfold parseLabel
    simp only [hsp, Bool.false_eq_true, if_false, splitLast_append p t ht]
  · intro s hsp hc
    unfold parseLabel
    simp only [hsp, Bool.false_eq_true, if_false, splitLast_eq_none hc]

/-- C7 amended witness: the two-colon string again, via the theorem. -/
theorem parseLabel_splits_on_last_colon_witness :
    (("a:b".data ++ ':' :: "c".data).any goSpace) = false ∧ ':' ∉ "c".data ∧
    parseLabel "a:b:c" = some ⟨"a:b", "c"⟩ := by
  refine ⟨by decide, by decide, ?_⟩
  exact parseLabel_splits_on_last_colon.1 "a:b".data "c".data (by decide) (by decide)

/-! ## Claim C8: how writeTarget persists a signature -/

/-- C8: Snapshot.writeTarget makes the parent directories and then writes
the encoded record directly to its final path with one WriteFile; its
operation trace contains no temporary-file creation and no rename, so the
persist step is not the claimed atomic write-to-temp-then-rename. -/
theorem writeTarget_writes_final_path_directly (ssPath : String) (ts : targetSnapshot) :
    (∀ src dst, FsOp.rename src dst ∉ writeTargetOps ssPath ts) ∧
    (∀ d, FsOp.createTemp d ∉ writeTargetOps ssPath ts) ∧
    FsOp.writeFile (snapshotTargetPath ssPath ts.name) ts ∈ writeTargetOps ssPath ts := by
  refine ⟨fun src dst => ?_, fun d => ?_, ?_⟩ <;> simp [writeTargetOps]

/-! ## Claim C9: the exec runner's argv precondition -/

/-- C9: Builder.runExec reads cmd.Args[0] with no emptiness guard: with an
empty Args list the index is out of range and the goroutine panics (none);
with non-empty Args the command is the head and the remaining arguments are
the tail, so the branch is safe. -/
theorem runExec_requires_nonempty_args :
    runExec ⟨[]⟩ = none ∧
    ∀ a rest, runExec ⟨a :: rest⟩ = some (a, rest) := by
  exact ⟨rfl, fun a rest => rfl⟩

/-! ## Claim C5: RootErr returns the first original cause -/

theorem realErr_true {x : Option BErr} (h : realErr x = true) :
    ∃ m, x = some (BErr.failed m) := by
  match x with
  | none => exact absurd h (by decide)
  | some BErr.dependency => exact absurd h (by decide)
  | some BErr.canceled => exact absurd h (by decide)
  | some (BErr.failed m) => exact ⟨m, rfl⟩

theorem findFirstReal_append (l1 l2 : List (Option BErr)) :
    findFirstReal (l1 ++ l2) =
      match findFirstReal l1 with
      | some x => some x
      | none => findFirstReal l2 := by
  induction l1 with
  | nil => simp [findFirstReal]
  | cons x rest ih =>
    by_cases h : realErr x
    · obtain ⟨m, rfl⟩ := realErr_true h
      simp [findFirstReal, h]
    · simp [findFirstReal, h, ih]

theorem findFirstReal_is_real {l : List (Option BErr)} {x : BErr}
    (h : findFirstReal l = some x) : realErr (some x) = true := by
  induction l with
  | nil => exact absurd h (by simp [findFirstReal])
  | cons y rest ih =>
    unfold findFirstReal at h
    by_cases hy : realErr y
    · rw [if_pos hy] at h
      rw [h] at hy
      exact hy
    · rw [if_neg hy] at h
      exact ih h

theorem rootErr_eq_findFirstReal : ∀ b, rootErr b = findFirstReal (preorder b) := by
  refine rootErr.induct (fun b => rootErr b = findFirstReal (preorder b))
    (fun l => rootErrList l = findFirstReal (preorderList l)) ?_ ?_ ?_ ?_ ?_
  · intro e deps h
    simp [rootErr, preorder, findFirstReal, h]
  · intro e deps h ih
    simp [rootErr, preorder, findFirstReal, h, ih]
  · rfl
  · intro b rest x hb ih1
    show rootErrList (b :: rest) = findFirstReal (preorderList (b :: rest))
    unfold rootErrList preorderList
    rw [findFirstReal_append, hb, ← ih1, hb]
  · intro b rest hb ih1 ih2
    show rootErrList (b :: rest) = findFirstReal (preorderList (b :: rest))
    unfold rootErrList preorderList
    rw [findFirstReal_append, hb, ← ih1, hb, ih2]

/-- C5: for every Build node and DAG of dependencies below it, RootErr
returns the first error of the pre-order walk (own error before dependency
errors, dependencies in order) that is neither the ErrDependency nor the
ErrCanceled sentinel, and nil when no such error exists; in particular it
never returns either sentinel. -/
theorem rootErr_skips_propagation_errors (b : BuildTree) :
    rootErr b = findFirstReal (preorder b) ∧
    rootErr b ≠ some BErr.dependency ∧ rootErr b ≠ some BErr.canceled := by
  refine ⟨rootErr_eq_findFirstReal b, ?_, ?_⟩
  · intro h
    rw [rootErr_eq_findFirstReal b] at h
    have := findFirstReal_is_real h
    exact absurd this (by decide)
  · intro h
    rw [rootErr_eq_findFirstReal b] at h
    have := findFirstReal_is_real h
    exact absurd this (by decide)

/-! ## Claim C10: input order independence of AddTarget -/

theorem sortStrings_eq_of_perm {ns ms : List String} (h : ns.Perm ms) :
    sortStrings ns = sortStrings ms := by
  exact List.eq_of_perm_of_sorted
    (((List.perm_insertionSort _ ns).trans h).trans (List.perm_insertionSort _ ms).symm)
    (List.sorted_insertionSort _ ns) (List.sorted_insertionSort _ ms)

/-- C10: over one on-disk state, Snapshot.AddTarget persists identical
signature records for any two input lists that are permutations of each
other: the names are sorted before the file snapshots are taken, so the
persisted record does not depend on the order the read-set was observed in. -/
theorem addTarget_input_order_irrelevant (fs : String → FileStat) (t : Target)
    {ns ms : List String} (h : ns.Perm ms) :
    addTarget fs t ns = addTarget fs t ms := by
  unfold addTarget newFileSnapshots
  rw [sortStrings_eq_of_perm h]

/-- C10 witness: two orders of the same two observed inputs, one of which
exists on disk, yield the same persisted record. -/
theorem addTarget_input_order_irrelevant_witness :
    addTarget (fun n => if n = "a" then FileStat.file "i" "c" else FileStat.missing)
        tC2 ["b", "a"] =
      addTarget (fun n => if n = "a" then FileStat.file "i" "c" else FileStat.missing)
        tC2 ["a", "b"] :=
  addTarget_input_order_irrelevant _ tC2 (by decide)

/-! ## Soundness of the planner walk (claims C3 and C4)

The joint induction below follows the two mutually recursive functions.  Its
key step rules out re-entrant planning: a successful planTarget call's target
is never on an input cycle, because the call's input loop would have had to
complete a nested call for a cycle successor, which the induction hypothesis
forbids; consequently the name inserted into the memo is always fresh, which
is exactly the one-node-per-name invariant. -/

theorem planTarget_sound (pkg : Package) (cs : List String)
    (huniq : (pkg.Targets.map Target.Name).Nodup) :
    ∀ fuel : Nat,
      (∀ t s r s2, t ∈ pkg.Targets → PlanInv pkg s →
        planTarget pkg cs fuel t s = Except.ok (r, s2) → PtConcl pkg t s s2) ∧
      (∀ inputs s b deps s2, PlanInv pkg s →
        planInputs pkg cs fuel inputs s = Except.ok (b, deps, s2) →
          PiConcl pkg inputs s s2) := by
  intro fuel
  induction fuel with
  | zero =>
    constructor
    · intro t s r s2 _ _ hok
      exact absurd hok (by simp [planTarget])
    · intro inputs s b deps s2 _ hok
      exact absurd hok (by simp [planInputs])
  | succ n ih =>
    obtain ⟨ihT, ihI⟩ := ih
    constructor
    · intro t s r s2 hmem hinv hok
      simp only [planTarget] at hok
      cases hl : lookupStr s.memo t.Name with
      | some b =>
        rw [hl] at hok
        simp only [Except.ok.injEq, Prod.mk.injEq] at hok
        obtain ⟨h1, h2⟩ := hok
        subst h2
        obtain ⟨u, humem, huname, hunc⟩ := hinv.2.2 t.Name (lookupStr_mem hl)
        have hut : u = t := target_name_inj huniq humem hmem huname
        refine ⟨hinv, ⟨[], by simp, by simp⟩, hut ▸ hunc⟩
      | none =>
        rw [hl] at hok
        cases hpi : planInputs pkg cs n t.Inputs s with
        | error e => rw [hpi] at hok; exact absurd hok (by simp)
        | ok tri =>
          obtain ⟨chg, deps, s1⟩ := tri
          rw [hpi] at hok
          obtain ⟨hinv1, ⟨d, hd, hdn⟩, hacyc⟩ := ihI t.Inputs s chg deps s1 hinv hpi
          have hnc : ¬ OnCycle pkg t := by
            rintro ⟨u, hres, hreach⟩
            obtain ⟨i, hi, hpt⟩ := hres
            exact hacyc i hi u hpt (onCycle_succ ⟨i, hi, hpt⟩ hreach)
          have hfresh : t.Name ∉ s1.memo.map Prod.fst := by
            intro hmm
            rw [hd, List.map_append] at hmm
            rcases List.mem_append.mp hmm with hmm | hmm
            · obtain ⟨i, u, v, hi, hpt, hreach, hname⟩ := hdn t.Name hmm
              have hvmem : v ∈ pkg.Targets :=
                reach_mem hreach (packageTarget_mem hpt)
              have hvt : v = t := target_name_inj huniq hvmem hmem hname
              exact hnc ⟨u, ⟨i, hi, hpt⟩, hvt ▸ hreach⟩
            · exact lookupStr_none hl hmm
          cases chg with
          | true =>
            simp only [if_true, Except.ok.injEq, Prod.mk.injEq] at hok
            obtain ⟨h1, h2⟩ := hok
            subst h2
            refine ⟨⟨?_, ?_, ?_⟩, ⟨(t.Name, s1.counter) :: d, by simp [hd], ?_⟩, hnc⟩
            · simp only [List.map_cons]
              rw [hinv1.1]
            · simp only [List.map_cons]
              exact List.nodup_cons.mpr ⟨hfresh, hinv1.2.1⟩
            · intro nm hmm
              simp only [List.map_cons] at hmm
              rcases List.mem_cons.mp hmm with hmm | hmm
              · exact ⟨t, hmem, hmm.symm, hnc⟩
              · exact hinv1.2.2 nm hmm
            · intro nm hmm
              simp only [List.map_cons] at hmm
              rcases List.mem_cons.mp hmm with hmm | hmm
              · exact ⟨t, Reach.refl t, hmm.symm⟩
              · obtain ⟨i, u, v, hi, hpt, hreach, hname⟩ := hdn nm hmm
                exact ⟨v, Reach.head ⟨i, hi, hpt⟩ hreach, hname⟩
          | false =>
            simp only [if_false, Bool.false_eq_true, Except.ok.injEq, Prod.mk.injEq] at hok
            obtain ⟨h1, h2⟩ := hok
            subst h2
            refine ⟨hinv1, ⟨d, hd, ?_⟩, hnc⟩
            intro nm hmm
            obtain ⟨i, u, v, hi, hpt, hreach, hname⟩ := hdn nm hmm
            exact ⟨v, Reach.head ⟨i, hi, hpt⟩ hreach, hname⟩
    · intro inputs s b deps s2 hinv hok
      cases inputs with
      | nil =>
        simp only [planInputs, Except.ok.injEq, Prod.mk.injEq] at hok
        obtain ⟨h1, h2, h3⟩ := hok
        subst h3
        exact ⟨hinv, ⟨[], by simp, by simp⟩, by simp⟩
      | cons input rest =>
        simp only [planInputs] at hok
        cases hres : packageTarget pkg input with
        | none =>
          rw [hres] at hok
          cases hpi : planInputs pkg cs n rest s with
          | error e => rw [hpi] at hok; exact absurd hok (by simp)
          | ok tri =>
            obtain ⟨chg, ds, s1⟩ := tri
            rw [hpi] at hok
            simp only [Except.ok.injEq, Prod.mk.injEq] at hok
            obtain ⟨h1, h2, h3⟩ := hok
            subst h3
            obtain ⟨hinv1, ⟨d, hd, hdn⟩, hacyc⟩ := ihI rest s chg ds s1 hinv hpi
            refine ⟨hinv1, ⟨d, hd, ?_⟩, ?_⟩
            · intro nm hmm
              obtain ⟨i, u, v, hi, hpt, hreach, hname⟩ := hdn nm hmm
              exact ⟨i, u, v, List.mem_cons_of_mem input hi, hpt, hreach, hname⟩
            · intro i hi u hpt
              rcases List.mem_cons.mp hi with hi | hi
              · rw [hi, hres] at hpt
                exact absurd hpt (by simp)
              · exact hacyc i hi u hpt
        | some sub =>
          simp only [hres] at hok
          have hsubmem := packageTarget_mem hres
          cases hpt : planTarget pkg cs n sub s with
          | error e => rw [hpt] at hok; exact absurd hok (by simp)
          | ok pr =>
            obtain ⟨r1, s1⟩ := pr
            obtain ⟨hinv1, ⟨da, hda, hdan⟩, hncsub⟩ := ihT sub s r1 s1 hsubmem hinv hpt
            have finish :
                ∀ b2 ds2 s3, planInputs pkg cs n rest s1 = Except.ok (b2, ds2, s3) →
                  s3 = s2 → PiConcl pkg (input :: rest) s s2 := by
              intro b2 ds2 s3 hpi2 heq
              subst heq
              obtain ⟨hinv2, ⟨db, hdb, hdbn⟩, hacyc2⟩ := ihI rest s1 b2 ds2 s3 hinv1 hpi2
              refine ⟨hinv2, ⟨db ++ da, by rw [hdb, hda, List.append_assoc], ?_⟩, ?_⟩
              · intro nm hmm
                rw [List.map_append] at hmm
                rcases List.mem_append.mp hmm with hmm | hmm
                · obtain ⟨i, u, v, hi, hptv, hreach, hname⟩ := hdbn nm hmm
                  exact ⟨i, u, v, List.mem_cons_of_mem input hi, hptv, hreach, hname⟩
                · obtain ⟨v, hreach, hname⟩ := hdan nm hmm
                  exact ⟨input, sub, v, List.mem_cons_self input rest, hres, hreach, hname⟩
              · intro i hi u hptu
                rcases List.mem_cons.mp hi with hi | hi
                · rw [hi, hres] at hptu
                  exact (Option.some.inj hptu) ▸ hncsub
                · exact hacyc2 i hi u hptu
            cases r1 with
            | none =>
              simp only [hpt] at hok
              exact finish b deps s2 hok rfl
            | some bid =>
              simp only [hpt] at hok
              cases hpi2 : planInputs pkg cs n rest s1 with
              | error e =>
                simp only [hpi2] at hok
                exact absurd hok (by simp)
              | ok tri2 =>
                obtain ⟨chg2, ds2, s3⟩ := tri2
                simp only [hpi2, Except.ok.injEq, Prod.mk.injEq] at hok
                exact finish chg2 ds2 s3 hpi2 hok.2.2

theorem planTargets_inv (pkg : Package) (cs : List String) (fuel : Nat)
    (huniq : (pkg.Targets.map Target.Name).Nodup) :
    ∀ names s r s2, PlanInv pkg s →
      planTargets pkg cs fuel names s = Except.ok (r, s2) → PlanInv pkg s2 := by
  intro names
  induction names with
  | nil =>
    intro s r s2 hinv hok
    simp only [planTargets, Except.ok.injEq, Prod.mk.injEq] at hok
    exact hok.2 ▸ hinv
  | cons name rest ih =>
    intro s r s2 hinv hok
    simp only [planTargets] at hok
    cases hres : packageTarget pkg name with
    | none =>
      rw [hres] at hok
      exact absurd hok (by simp)
    | some t =>
      simp only [hres] at hok
      cases hpt : planTarget pkg cs fuel t s with
      | error e => rw [hpt] at hok; exact absurd hok (by simp)
      | ok pr =>
        obtain ⟨r1, s1⟩ := pr
        have hinv1 :=
          ((planTarget_sound pkg cs huniq fuel).1 t s r1 s1
            (packageTarget_mem hres) hinv hpt).1
        cases r1 with
        | none =>
          simp only [hpt] at hok
          exact ih s1 r s2 hinv1 hok
        | some bid =>
          simp only [hpt] at hok
          cases hpts : planTargets pkg cs fuel rest s1 with
          | error e =>
            simp only [hpts] at hok
            exact absurd hok (by simp)
          | ok pr2 =>
            obtain ⟨ds, s3⟩ := pr2
            simp only [hpts, Except.ok.injEq, Prod.mk.injEq] at hok
            exact hok.2 ▸ ih s1 ds s3 hinv1 hpts

/-- C3: in every Planner run that terminates (returns a plan for some fuel)
over a package whose target names are unique, as the data model requires, at
most one Build node is constructed per target name: the log of constructed
nodes carries pairwise distinct names, so two planned targets that both
depend on a target T receive the identical memoised node for T. -/
theorem plan_one_node_per_name (pkg : Package) (cs : List String) (fuel : Nat)
    (targets : List String) (r : Option (List Nat)) (s2 : PlanState)
    (huniq : (pkg.Targets.map Target.Name).Nodup)
    (hok : plan pkg cs fuel targets = Except.ok (r, s2)) :
    (s2.nodes.map (fun n => n.target.Name)).Nodup := by
  unfold plan at hok
  cases hpts : planTargets pkg cs fuel targets ⟨0, [], []⟩ with
  | error e => rw [hpts] at hok; exact absurd hok (by simp)
  | ok pr =>
    obtain ⟨ds, s⟩ := pr
    simp only [hpts, Except.ok.injEq, Prod.mk.injEq] at hok
    have hinv0 : PlanInv pkg ⟨0, [], []⟩ :=
      ⟨rfl, List.nodup_nil, by intro nm h; exact absurd h (by simp)⟩
    have hinv := planTargets_inv pkg cs fuel huniq targets ⟨0, [], []⟩ ds s hinv0 hpts
    rw [← hok.2, ← hinv.1]
    exact hinv.2.1

/-! ### Concrete diamond run for the C3 witness -/

/-- Diamond top: A depends on B and C. -/
def tgA : Target := ⟨"A", false, "", "", [], ["B", "C"], []⟩

/-- Left arm: B depends on D. -/
def tgB : Target := ⟨"B", false, "", "", [], ["D"], []⟩

/-- Right arm: C depends on D. -/
def tgC : Target := ⟨"C", false, "", "", [], ["D"], []⟩

/-- Shared bottom: D depends on the changed file E. -/
def tgD : Target := ⟨"D", false, "", "", [], ["E"], []⟩

/-- The diamond package of the planner reuse test. -/
def pkgDiamond : Package := ⟨"p", [tgA, tgB, tgC, tgD]⟩

/-- The state the diamond run ends in: one node per name, D's node 0 shared
as the single dependency of both B's node 1 and C's node 2. -/
def diamondState : PlanState :=
  ⟨4, [("A", 3), ("C", 2), ("B", 1), ("D", 0)],
   [⟨3, tgA, [1, 2]⟩, ⟨2, tgC, [0]⟩, ⟨1, tgB, [0]⟩, ⟨0, tgD, []⟩]⟩

/-- C3 witness: planning the diamond with E changed constructs exactly one
node per target name. -/
theorem plan_one_node_per_name_witness :
    (diamondState.nodes.map (fun n => n.target.Name)).Nodup :=
  plan_one_node_per_name pkgDiamond ["E"] 10 ["A"] (some [3]) diamondState
    (by decide) rfl

/-! ## Claim C4: a cyclic package -/

/-- A self-cyclic target: A lists itself as an input. -/
def tCyc : Target := ⟨"A", false, "", "", [], ["A"], []⟩

/-- The package containing only the self-cyclic target. -/
def pkgCyc : Package := ⟨"p", [tCyc]⟩

theorem planTarget_cyc (fuel : Nat) :
    planTarget pkgCyc [] fuel tCyc ⟨0, [], []⟩ = Except.error outOfFuel ∧
    planInputs pkgCyc [] fuel ["A"] ⟨0, [], []⟩ = Except.error outOfFuel := by
  induction fuel with
  | zero => exact ⟨rfl, rfl⟩
  | succ n ih =>
    constructor
    · have hl : lookupStr (⟨0, [], []⟩ : PlanState).memo tCyc.Name = none := rfl
      have hin : tCyc.Inputs = ["A"] := rfl
      simp only [planTarget, hl, hin, ih.2]
    · have hres : packageTarget pkgCyc "A" = some tCyc := rfl
      simp only [planInputs, hres, ih.1]

/-- C4: the Planner contains no in-progress revisit check and no BuildCycle
error: planning the package whose target A lists itself as an input recurses
without bound, modelled by every fuel bound being exhausted, so Plan never
succeeds and never reports a cycle error; the claimed BuildCycle detection
does not exist in the code. -/
theorem plan_cycle_never_detected (fuel : Nat) :
    plan pkgCyc [] fuel ["A"] = Except.error outOfFuel := by
  have hres : packageTarget pkgCyc "A" = some tCyc := rfl
  simp only [plan, planTargets, hres, (planTarget_cyc fuel).1]

end Bake

